import Mathlib

/-!
Verification of the conversation-naming engine of the Amplify-Enza-Chat
repository (source file exporting `generateConversationName`,
`validateConversationName` and `cleanConversationName`).

Strings are embedded as `List Char`.  Each definition below mirrors one
JavaScript function (or one regex operation inside it) from the source.
-/

/-- The whitespace class of JavaScript: the characters matched by `\s` in a
regular expression and removed by `String.prototype.trim`. -/
def wsChars : List Char :=
  [' ', '\t', '\n', '\x0b', '\x0c', '\r',
   ' ', ' ', ' ', ' ', ' ', ' ', ' ',
   ' ', ' ', ' ', ' ', ' ', ' ',
   ' ', ' ', ' ', ' ', '　', '﻿']

/-- Membership in the JavaScript whitespace class. -/
def isWs (c : Char) : Bool := wsChars.contains c

/-- Embedding of `String.prototype.trim`: drop whitespace from both ends. -/
def trimList (s : List Char) : List Char :=
  (((s.dropWhile isWs).reverse.dropWhile isWs).reverse)

/-- The ordered alternatives of the stripping regex
`/^(hi|hello|hey|please|can you|could you|would you|i need|i want|help me)\s+/i`,
each stored lowercase. -/
def stripOpeners : List (List Char) :=
  ["hi".toList, "hello".toList, "hey".toList, "please".toList,
   "can you".toList, "could you".toList, "would you".toList,
   "i need".toList, "i want".toList, "help me".toList]

/-- The alternatives of the second regex
`/^(tell me|explain|show me|what is|what are|how do|how to|where is|when is|why)\s*_/i`
(the source replaces a match of this pattern with the matched text itself). -/
def preserveSet : List (List Char) :=
  ["tell me".toList, "explain".toList, "show me".toList, "what is".toList,
   "what are".toList, "how do".toList, "how to".toList, "where is".toList,
   "when is".toList, "why".toList]

/-- Case-insensitive anchored match of a (lowercase) literal alternative `o`
against the start of `s`, as performed by a `/i` regex. -/
def matchesCI (o s : List Char) : Bool :=
  (s.take o.length).map Char.toLower == o

/-- Whether the character right after the matched literal exists and is
whitespace — the `\s+` that the stripping regex requires after the opener. -/
def wsAfter (o s : List Char) : Bool :=
  match s.drop o.length with
  | [] => false
  | c :: _ => isWs c

/-- Regex alternation at position 0: try each literal alternative in order;
on the first alternative that matches and is followed by whitespace, remove
the alternative together with the whole following whitespace run (greedy
`\s+`), i.e. `.replace(..., '')` on the anchored match. -/
def stripOpenerWith : List (List Char) → List Char → List Char
  | [], s => s
  | o :: os, s =>
    if matchesCI o s && wsAfter o s then (s.drop o.length).dropWhile isWs
    else stripOpenerWith os s

/-- Embedding of the first `.replace` of `applyNamingRules`. -/
def stripOpener (s : List Char) : List Char :=
  stripOpenerWith stripOpeners s

/-- Embedding of the second `.replace` of `applyNamingRules`: the source
replaces a match of the `preserveSet` pattern with `'$&'`, the matched text
itself, so the operation returns its input unchanged for every string. -/
def preserveOpeners (s : List Char) : List Char := s

/-- Embedding of `charAt(0).toUpperCase() + slice(1)` (ASCII uppercasing of
the first character; on the empty string both parts are empty). -/
def capitalize : List Char → List Char
  | [] => []
  | c :: rest => Char.toUpper c :: rest

/-- Embedding of `.replace(/c+$/, '')`: remove the maximal trailing run of
the character `c`. -/
def dropTrailing (c : Char) (l : List Char) : List Char :=
  (l.reverse.dropWhile (fun x => x == c)).reverse

/-- Embedding of `applyNamingRules` from the source: strip an opener,
apply the (identity) preserve replacement, trim; revert to the original
message when fewer than 5 characters remain; capitalize the first letter;
remove trailing `?` runs, then `.` runs, then `!` runs; trim again. -/
def applyNamingRules (message : List Char) : List Char :=
  let processed := trimList (preserveOpeners (stripOpener message))
  let reverted := if processed.length < 5 then message else processed
  trimList (dropTrailing '!' (dropTrailing '.' (dropTrailing '?' (capitalize reverted))))

/-- Embedding of `truncated.lastIndexOf(' ')` composed with the take:
the index of the last literal space of `l`, or `-1` when `l` has no space.
`List.findIdx` returns `l.length` when no element satisfies the predicate,
which makes the formula produce `-1` exactly in the no-space case. -/
def lastSpaceIdx (l : List Char) : Int :=
  (l.length : Int) - 1 - (l.reverse.findIdx (fun c => c == ' ') : Int)

/-- The literal `'...'` appended by `smartTruncate`. -/
def ellipsis : List Char := ['.', '.', '.']

/-- Embedding of `smartTruncate` from the source.  The JavaScript guard is
`lastSpace > maxLength * 0.6` on IEEE doubles; for every practical length
(anything below 2^50) this coincides with the exact rational comparison
`5 * lastSpace > 3 * maxLength` used here, because `n * 0.6` rounds to the
double nearest `3n/5`, which lies on the same side of every integer. -/
def smartTruncate (text : List Char) (maxLength : Nat) : List Char :=
  if text.length ≤ maxLength then text
  else
    let truncated := text.take maxLength
    let lastSpace := lastSpaceIdx truncated
    if lastSpace * 5 > (maxLength : Int) * 3 then
      truncated.take lastSpace.toNat ++ ellipsis
    else
      truncated.take (maxLength - 3) ++ ellipsis

/-- The twelve short month names produced by the `'en-US'` locale with
`month: 'short'`. -/
def monthNames : List (List Char) :=
  ["Jan".toList, "Feb".toList, "Mar".toList, "Apr".toList, "May".toList,
   "Jun".toList, "Jul".toList, "Aug".toList, "Sep".toList, "Oct".toList,
   "Nov".toList, "Dec".toList]

/-- The decimal digit character for `n % 10`. -/
def digitChar (n : Nat) : Char := Char.ofNat (48 + n % 10)

/-- Rendering of a day or hour field under the `'numeric'` option (the
values produced by a `Date` are always below 100): no padding, one or two
digits. -/
def natChars (n : Nat) : List Char :=
  if n < 10 then [digitChar n] else [digitChar (n / 10), digitChar n]

/-- Rendering of the minute field under the `'2-digit'` option. -/
def twoDigit (n : Nat) : List Char := [digitChar (n / 10), digitChar n]

/-- The displayed hour on a 12-hour clock (`hour12: true`). -/
def hour12of (h : Nat) : Nat := if h % 12 == 0 then 12 else h % 12

/-- The day-period marker of the 12-hour clock. -/
def ampm (h : Nat) : List Char :=
  if h % 24 < 12 then "AM".toList else "PM".toList

/-- Models `now.toLocaleDateString('en-US', {month: 'short', day: 'numeric',
hour: 'numeric', minute: '2-digit', hour12: true})`, e.g. `Jan 20, 2:30 PM`.
`month` is the zero-based month index of a JavaScript `Date`. -/
def formatFallbackDate (month day hour minute : Nat) : List Char :=
  (monthNames.getD month ("Jan".toList)) ++ [' '] ++ natChars day
    ++ ", ".toList ++ natChars (hour12of hour) ++ [':'] ++ twoDigit minute
    ++ [' '] ++ ampm hour

/-- Embedding of `generateFallbackName`, parameterised by the clock reading
the source obtains from `new Date()`. -/
def generateFallbackName (month day hour minute : Nat) : List Char :=
  "Chat started on ".toList ++ formatFallbackDate month day hour minute

/-- Embedding of `generateConversationName`, parameterised by the clock
reading used on the fallback path. -/
def generateConversationName (month day hour minute : Nat)
    (firstMessage : List Char) : List Char :=
  let cleaned := trimList firstMessage
  if cleaned.length < 5 then generateFallbackName month day hour minute
  else smartTruncate (applyNamingRules cleaned) 50

/-- The record returned by `validateConversationName`. -/
structure ValidationResult where
  isValid : Bool
  error : Option (List Char)
deriving DecidableEq

/-- The reserved characters of the validation regex `[<>:"/\\|?*\x00-\x1f]`
apart from the control range. -/
def reservedChars : List Char := ['<', '>', ':', '"', '/', '\\', '|', '?', '*']

/-- Whether a character is matched by the validation regex: a reserved
character or an ASCII control character (code points 0 through 31). -/
def isInvalidChar (c : Char) : Bool :=
  reservedChars.contains c || c.toNat ≤ 31

/-- Embedding of `validateConversationName` from the source. -/
def validateConversationName (name : List Char) : ValidationResult :=
  let trimmed := trimList name
  if trimmed = [] then
    ⟨false, some ("Conversation name cannot be empty".toList)⟩
  else if 100 < trimmed.length then
    ⟨false, some ("Conversation name must be 100 characters or less".toList)⟩
  else if trimmed.any isInvalidChar then
    ⟨false, some ("Conversation name contains invalid characters".toList)⟩
  else ⟨true, none⟩

/-- Embedding of the global `.replace(/\s+/g, ' ')`: every maximal run of
whitespace becomes a single ASCII space.  The Boolean argument records
whether the previous character belonged to the current whitespace run. -/
def collapseAux : Bool → List Char → List Char
  | _, [] => []
  | prevWs, c :: rest =>
    if isWs c then
      if prevWs then collapseAux true rest
      else ' ' :: collapseAux true rest
    else c :: collapseAux false rest

/-- Embedding of `cleanConversationName` from the source:
`trim()`, then `replace(/\s+/g, ' ')`, then `substring(0, 100)`. -/
def cleanConversationName (name : List Char) : List Char :=
  (collapseAux false (trimList name)).take 100

/-- Anchored-prefix test used to state that no regex alternative shadows
another: `leadsWith p l` holds when `p` is an initial segment of `l`. -/
def leadsWith (p l : List Char) : Bool := l.take p.length == p

/-- Boolean check that a string contains no two adjacent whitespace
characters (every whitespace run has length one). -/
def noWsRun : List Char → Bool
  | [] => true
  | [_] => true
  | a :: b :: rest => (!(isWs a && isWs b)) && noWsRun (b :: rest)

/-! ## Helper lemmas -/

theorem dropWhile_length_le (p : Char → Bool) (l : List Char) :
    (l.dropWhile p).length ≤ l.length :=
  List.IsSuffix.length_le (List.dropWhile_suffix p)

theorem trimList_length_le (l : List Char) : (trimList l).length ≤ l.length := by
  unfold trimList
  calc ((l.dropWhile isWs).reverse.dropWhile isWs).reverse.length
      = ((l.dropWhile isWs).reverse.dropWhile isWs).length := List.length_reverse _
    _ ≤ (l.dropWhile isWs).reverse.length := dropWhile_length_le _ _
    _ = (l.dropWhile isWs).length := List.length_reverse _
    _ ≤ l.length := dropWhile_length_le _ _

theorem mem_of_mem_dropWhile (p : Char → Bool) (l : List Char) (c : Char)
    (h : c ∈ l.dropWhile p) : c ∈ l :=
  (List.IsSuffix.sublist (List.dropWhile_suffix p)).mem h

theorem mem_of_mem_trimList (l : List Char) (c : Char) (h : c ∈ trimList l) :
    c ∈ l := by
  unfold trimList at h
  rw [List.mem_reverse] at h
  have h2 := mem_of_mem_dropWhile _ _ _ h
  rw [List.mem_reverse] at h2
  exact mem_of_mem_dropWhile _ _ _ h2

theorem trimList_eq_nil_iff (l : List Char) :
    trimList l = [] ↔ ∀ c ∈ l, isWs c = true := by
  unfold trimList
  rw [List.reverse_eq_nil_iff, List.dropWhile_eq_nil_iff]
  constructor
  · intro h c hc
    by_cases hmem : c ∈ l.dropWhile isWs
    · exact h c (by rwa [List.mem_reverse])
    · have hsplit := List.takeWhile_append_dropWhile isWs l
      rw [← hsplit] at hc
      rcases List.mem_append.mp hc with h1 | h1
      · exact List.mem_takeWhile_imp h1
      · exact absurd h1 hmem
  · intro h c hc
    rw [List.mem_reverse] at hc
    exact h c (mem_of_mem_dropWhile _ _ _ hc)

theorem dropWhile_head_not (p : Char → Bool) :
    ∀ (l : List Char) (c : Char) (r : List Char),
      l.dropWhile p = c :: r → p c = false := by
  intro l
  induction l with
  | nil => intro c r h; simp [List.dropWhile] at h
  | cons a t ih =>
    intro c r h
    rw [List.dropWhile_cons] at h
    by_cases ha : p a = true
    · rw [if_pos ha] at h
      exact ih c r h
    · rw [if_neg ha] at h
      cases h
      exact Bool.eq_false_iff.mpr ha

theorem trim_head_not_ws (l : List Char) (c : Char) (r : List Char)
    (h : trimList l = c :: r) : isWs c = false := by
  unfold trimList at h
  have hBne : (l.dropWhile isWs).reverse.dropWhile isWs ≠ [] := by
    intro hb
    rw [hb] at h
    simp at h
  have hlast : ((l.dropWhile isWs).reverse.dropWhile isWs).getLast? = some c := by
    rw [← List.head?_reverse, h]
    rfl
  obtain ⟨pre, hpre⟩ := List.dropWhile_suffix (l := (l.dropWhile isWs).reverse) isWs
  have hAlast : (l.dropWhile isWs).reverse.getLast? = some c := by
    rw [← hpre, List.getLast?_append_of_ne_nil pre hBne]
    exact hlast
  rw [List.getLast?_reverse] at hAlast
  cases hA : l.dropWhile isWs with
  | nil => rw [hA] at hAlast; simp at hAlast
  | cons x xs =>
    rw [hA] at hAlast
    simp at hAlast
    rw [← hAlast]
    exact dropWhile_head_not isWs l x xs hA

theorem dropWhile_ws_append (ws rest : List Char)
    (h1 : ∀ c ∈ ws, isWs c = true) (h2 : isWs (rest.headD 'x') = false) :
    (ws ++ rest).dropWhile isWs = rest := by
  induction ws with
  | nil =>
    cases rest with
    | nil => rfl
    | cons r t =>
      simp only [List.headD_cons] at h2
      simp [List.dropWhile_cons, h2]
  | cons w t ih =>
    have hw : isWs w = true := h1 w (List.mem_cons_self w t)
    rw [List.cons_append, List.dropWhile_cons, if_pos hw]
    exact ih (fun c hc => h1 c (List.mem_cons_of_mem w hc))

theorem collapse_true_head (l : List Char) :
    collapseAux true l = [] ∨ isWs ((collapseAux true l).headD 'x') = false := by
  induction l with
  | nil => left; rfl
  | cons c rest ih =>
    by_cases hc : isWs c = true
    · rw [collapseAux, if_pos hc, if_pos rfl]
      exact ih
    · right
      rw [collapseAux, if_neg hc]
      simpa using Bool.eq_false_iff.mpr hc

theorem collapse_noWsRun (l : List Char) : ∀ b, noWsRun (collapseAux b l) = true := by
  induction l with
  | nil => intro b; rfl
  | cons c rest ih =>
    intro b
    by_cases hc : isWs c = true
    · cases b with
      | true =>
        rw [collapseAux, if_pos hc, if_pos rfl]
        exact ih true
      | false =>
        rw [collapseAux, if_pos hc, if_neg (by simp)]
        cases hY : collapseAux true rest with
        | nil => rfl
        | cons y ys =>
          rcases collapse_true_head rest with hnil | hhead
          · rw [hnil] at hY; cases hY
          · rw [hY] at hhead
            simp only [List.headD_cons] at hhead
            have hrec := ih true
            rw [hY] at hrec
            simp [noWsRun, hhead, hrec]
    · rw [collapseAux, if_neg hc]
      cases hY : collapseAux false rest with
      | nil => rfl
      | cons y ys =>
        have hrec := ih false
        rw [hY] at hrec
        simp [noWsRun, Bool.eq_false_iff.mpr hc, hrec]

theorem collapse_mem (l : List Char) :
    ∀ b c, c ∈ collapseAux b l → c = ' ' ∨ c ∈ l := by
  induction l with
  | nil => intro b c h; simp [collapseAux] at h
  | cons a rest ih =>
    intro b c h
    by_cases ha : isWs a = true
    · cases b with
      | true =>
        rw [collapseAux, if_pos ha, if_pos rfl] at h
        rcases ih true c h with h1 | h1
        · exact Or.inl h1
        · exact Or.inr (List.mem_cons_of_mem a h1)
      | false =>
        rw [collapseAux, if_pos ha, if_neg (by simp)] at h
        rcases List.mem_cons.mp h with h1 | h1
        · exact Or.inl h1
        · rcases ih true c h1 with h2 | h2
          · exact Or.inl h2
          · exact Or.inr (List.mem_cons_of_mem a h2)
    · rw [collapseAux, if_neg ha] at h
      rcases List.mem_cons.mp h with h1 | h1
      · exact Or.inr (h1 ▸ List.mem_cons_self a rest)
      · rcases ih false c h1 with h2 | h2
        · exact Or.inl h2
        · exact Or.inr (List.mem_cons_of_mem a h2)

theorem noWsRun_take (l : List Char) :
    ∀ n, noWsRun l = true → noWsRun (l.take n) = true := by
  induction l with
  | nil => intro n _; simp [noWsRun]
  | cons a rest ih =>
    intro n h
    cases n with
    | zero => rfl
    | succ m =>
      rw [List.take_succ_cons]
      cases rest with
      | nil => simp [noWsRun]
      | cons b rs =>
        have h1 : (!(isWs a && isWs b)) = true ∧ noWsRun (b :: rs) = true := by
          simpa [noWsRun, Bool.and_eq_true] using h
        cases m with
        | zero => simp [noWsRun]
        | succ k =>
          have h2 := ih (k + 1) h1.2
          rw [List.take_succ_cons] at h2 ⊢
          simp only [noWsRun, Bool.and_eq_true]
          exact ⟨h1.1, h2⟩

theorem matchesCI_decomp (o a b : List Char) (h : matchesCI o (a ++ b) = true) :
    (o.length ≤ a.length ∧ leadsWith o (a.map Char.toLower) = true) ∨
    (a.length < o.length ∧ leadsWith (a.map Char.toLower) o = true) := by
  unfold matchesCI at h
  rw [beq_iff_eq] at h
  by_cases hle : o.length ≤ a.length
  · left
    refine ⟨hle, ?_⟩
    rw [List.take_append_of_le_length hle] at h
    unfold leadsWith
    rw [beq_iff_eq, ← List.map_take, h]
  · right
    refine ⟨Nat.lt_of_not_le hle, ?_⟩
    rw [List.take_append_eq_append_take,
        List.take_of_length_le (Nat.le_of_not_le hle), List.map_append] at h
    unfold leadsWith
    rw [beq_iff_eq, ← h]
    simp

theorem strip_no_match (L : List (List Char)) (s : List Char)
    (h : ∀ o ∈ L, (matchesCI o s && wsAfter o s) = false) :
    stripOpenerWith L s = s := by
  induction L with
  | nil => rfl
  | cons o os ih =>
    rw [stripOpenerWith, if_neg (by simp [h o (List.mem_cons_self o os)])]
    exact ih (fun o2 h2 => h o2 (List.mem_cons_of_mem o h2))

theorem strip_first_match (L : List (List Char)) :
    ∀ (pre ws rest : List Char),
      (∀ o1 ∈ L, ∀ o2 ∈ L, leadsWith o1 o2 = true → o1 = o2) →
      pre.map Char.toLower ∈ L →
      ws ≠ [] → (∀ c ∈ ws, isWs c = true) →
      isWs (rest.headD 'x') = false →
      stripOpenerWith L (pre ++ ws ++ rest) = rest := by
  induction L with
  | nil => intro pre ws rest _ hmem; cases hmem
  | cons o os ih =>
    intro pre ws rest hfree hmem hne hws hrest
    rw [List.append_assoc]
    by_cases heq : pre.map Char.toLower = o
    · have hlen : o.length = pre.length := by
        rw [← heq, List.length_map]
      have hdrop : (pre ++ (ws ++ rest)).drop o.length = ws ++ rest := by
        rw [hlen, List.drop_left]
      have hm : matchesCI o (pre ++ (ws ++ rest)) = true := by
        unfold matchesCI
        rw [hlen, List.take_append_of_le_length (le_refl pre.length),
            List.take_of_length_le (le_refl pre.length), heq]
        exact beq_self_eq_true o
      have hw : wsAfter o (pre ++ (ws ++ rest)) = true := by
        unfold wsAfter
        rw [hdrop]
        cases ws with
        | nil => exact absurd rfl hne
        | cons w t =>
          rw [List.cons_append]
          exact hws w (List.mem_cons_self w t)
      rw [stripOpenerWith, if_pos (by rw [hm, hw]; rfl), hdrop]
      exact dropWhile_ws_append ws rest hws hrest
    · have hcond : (matchesCI o (pre ++ (ws ++ rest)) && wsAfter o (pre ++ (ws ++ rest))) = false := by
        cases hm : matchesCI o (pre ++ (ws ++ rest)) with
        | false => rfl
        | true =>
          exfalso
          rcases matchesCI_decomp o pre (ws ++ rest) hm with ⟨_, hlw⟩ | ⟨_, hlw⟩
          · exact heq ((hfree o (List.mem_cons_self o os)
              (pre.map Char.toLower) hmem hlw).symm)
          · exact heq (hfree (pre.map Char.toLower) hmem o
              (List.mem_cons_self o os) hlw)
      rw [stripOpenerWith, if_neg (by rw [hcond]; exact Bool.false_ne_true)]
      have hmem2 : pre.map Char.toLower ∈ os := by
        rcases List.mem_cons.mp hmem with h1 | h1
        · exact absurd h1 heq
        · exact h1
      have hrec := ih pre ws rest
        (fun o1 h1 o2 h2 => hfree o1 (List.mem_cons_of_mem o h1) o2 (List.mem_cons_of_mem o h2))
        hmem2 hne hws hrest
      rw [List.append_assoc] at hrec
      exact hrec

theorem stripOpeners_free :
    ∀ o1 ∈ stripOpeners, ∀ o2 ∈ stripOpeners, leadsWith o1 o2 = true → o1 = o2 := by
  decide

theorem strip_preserve_disjoint :
    ∀ o ∈ stripOpeners, ∀ p ∈ preserveSet,
      leadsWith o p = false ∧ leadsWith p o = false := by
  decide

theorem monthName_length (m : Nat) : (monthNames.getD m ("Jan".toList)).length = 3 := by
  match m with
  | 0 | 1 | 2 | 3 | 4 | 5 | 6 | 7 | 8 | 9 | 10 | 11 => rfl
  | n + 12 =>
    rw [List.getD_eq_default monthNames ("Jan".toList)
      (by have h12 : monthNames.length = 12 := rfl; omega)]
    rfl

theorem natChars_length_le (n : Nat) : (natChars n).length ≤ 2 := by
  unfold natChars
  split <;> simp

theorem ampm_length (h : Nat) : (ampm h).length = 2 := by
  unfold ampm
  split <;> rfl

theorem formatFallbackDate_length_le (month day hour minute : Nat) :
    (formatFallbackDate month day hour minute).length ≤ 16 := by
  unfold formatFallbackDate
  simp only [List.length_append]
  have h1 := monthName_length month
  have h2 := natChars_length_le day
  have h3 := natChars_length_le (hour12of hour)
  have h4 : (twoDigit minute).length = 2 := rfl
  have h5 := ampm_length hour
  have h6 : (", ".toList).length = 2 := rfl
  have h7 : [' '].length = 1 := rfl
  have h8 : [':'].length = 1 := rfl
  omega

theorem smartTruncate50_length_le (t : List Char) :
    (smartTruncate t 50).length ≤ 52 := by
  unfold smartTruncate
  by_cases h : t.length ≤ 50
  · rw [if_pos h]
    omega
  · rw [if_neg h]
    have hlen : (t.take 50).length = 50 := by
      rw [List.length_take]
      omega
    have hfi : (0 : Int) ≤ ((t.take 50).reverse.findIdx (fun c => c == ' ') : Int) :=
      Int.natCast_nonneg _
    have hidx : lastSpaceIdx (t.take 50) ≤ (50 : Int) - 1 := by
      unfold lastSpaceIdx
      rw [hlen]
      omega
    have he : ellipsis.length = 3 := rfl
    by_cases h2 : lastSpaceIdx (t.take 50) * 5 > ((50 : Nat) : Int) * 3
    · rw [if_pos h2]
      rw [List.length_append, List.length_take, hlen]
      omega
    · rw [if_neg h2]
      rw [List.length_append, List.length_take, hlen]
      omega

/-! ## Claim theorems -/

/-- C1 counterexample: the claim that `generateConversationName` always
returns a non-empty string of at most 50 characters is false.  On the input
`"?????"` (trimmed length 5, all trailing question marks removed by the
punctuation cleanup) the result is the empty string, and on a 60-character
input whose last space inside the 50-character window sits at index 49 the
word-boundary branch returns 49 characters plus a 3-character ellipsis,
52 characters in all. -/
theorem generate_name_c1_counterexample :
    generateConversationName 0 1 0 0 ("?????".toList) = []
  ∧ (generateConversationName 0 1 0 0
      (List.replicate 49 'a' ++ ' ' :: List.replicate 10 'b')).length = 52 := by
  constructor
  · decide
  · decide

/-- C1 (amended): for every input string and every clock reading,
`generateConversationName` returns a string of length at most 52 characters
(50 on the identity and hard-cut branches, up to 52 when the word-boundary
branch of `smartTruncate` fires, 32 at most on the fallback path); the
operation is total and never signals an error.  The result can be empty,
as the counterexample shows. -/
theorem generate_name_length_le_52 (month day hour minute : Nat) (s : List Char) :
    (generateConversationName month day hour minute s).length ≤ 52 := by
  unfold generateConversationName
  by_cases h : (trimList s).length < 5
  · rw [if_pos h]
    unfold generateFallbackName
    rw [List.length_append]
    have h1 : ("Chat started on ".toList).length = 16 := rfl
    have h2 := formatFallbackDate_length_le month day hour minute
    omega
  · rw [if_neg h]
    exact smartTruncate50_length_le _

/-- C2: `validateConversationName` trims its input and returns a structured
result with the claimed precedence: the empty-name error exactly when the
trimmed string is empty; otherwise the length error exactly when the trimmed
length exceeds 100; otherwise the invalid-character error exactly when the
trimmed string contains a reserved character `< > : " / \ | ? *` or an ASCII
control character (code points 0 through 31); otherwise a valid result with
no error.  The result record carries no copy of the trimmed string. -/
theorem validate_name_spec (name : List Char) :
    (trimList name = [] →
      validateConversationName name =
        ⟨false, some ("Conversation name cannot be empty".toList)⟩)
  ∧ (trimList name ≠ [] → 100 < (trimList name).length →
      validateConversationName name =
        ⟨false, some ("Conversation name must be 100 characters or less".toList)⟩)
  ∧ (trimList name ≠ [] → (trimList name).length ≤ 100 →
      (trimList name).any isInvalidChar = true →
      validateConversationName name =
        ⟨false, some ("Conversation name contains invalid characters".toList)⟩)
  ∧ (trimList name ≠ [] → (trimList name).length ≤ 100 →
      (trimList name).any isInvalidChar = false →
      validateConversationName name = ⟨true, none⟩) := by
  refine ⟨?_, ?_, ?_, ?_⟩
  · intro h1
    simp [validateConversationName, h1]
  · intro h1 h2
    simp [validateConversationName, h1, h2]
  · intro h1 h2 h3
    have h2n : ¬ 100 < (trimList name).length := by omega
    simp [validateConversationName, h1, h2n, h3]
  · intro h1 h2 h3
    have h2n : ¬ 100 < (trimList name).length := by omega
    simp [validateConversationName, h1, h2n, h3]

/-- C2 witness: applying the specification to the concrete name
`"My Chat 2024"`, which is valid. -/
theorem validate_name_spec_witness :
    validateConversationName ("My Chat 2024".toList) = ⟨true, none⟩ :=
  (validate_name_spec ("My Chat 2024".toList)).2.2.2
    (by decide) (by decide) (by decide)

/-- C3 counterexample: the claim quantifies over every `maxLength` and
asserts that the hard-cut branch produces a string of length exactly
`maxLength`; for `text = "abcd"` and `maxLength = 2` (no space in the first
two characters, so the hard-cut branch fires) the result is the bare
ellipsis of length 3, not 2. -/
theorem smartTruncate_small_max_counterexample :
    ("abcd".toList).length > 2
  ∧ smartTruncate ("abcd".toList) 2 = ellipsis
  ∧ (smartTruncate ("abcd".toList) 2).length ≠ 2 := by
  refine ⟨by decide, by decide, by decide⟩

/-- C3 (amended): for every `maxLength ≥ 3` and every string longer than
`maxLength`, with `p` the position of the last space within the first
`maxLength` characters: if `p` is beyond 60% of `maxLength` the result is
the first `p` characters followed by `"..."`; otherwise it is the first
`maxLength - 3` characters followed by `"..."`, of length exactly
`maxLength`.  Concretely, `smartTruncate "The quick brown fox" 10` cuts at
the word boundary (last space at index 9 > 6). -/
theorem smartTruncate_branches (text : List Char) (maxLength : Nat)
    (h3 : 3 ≤ maxLength) (hlen : maxLength < text.length) :
    (lastSpaceIdx (text.take maxLength) * 5 > (maxLength : Int) * 3 →
      smartTruncate text maxLength =
        (text.take maxLength).take (lastSpaceIdx (text.take maxLength)).toNat ++ ellipsis)
  ∧ (¬ lastSpaceIdx (text.take maxLength) * 5 > (maxLength : Int) * 3 →
      smartTruncate text maxLength = (text.take maxLength).take (maxLength - 3) ++ ellipsis
      ∧ (smartTruncate text maxLength).length = maxLength)
  ∧ smartTruncate ("The quick brown fox".toList) 10 = "The quick...".toList := by
  have hnot : ¬ text.length ≤ maxLength := by omega
  refine ⟨?_, ?_, by decide⟩
  · intro hsp
    unfold smartTruncate
    rw [if_neg hnot, if_pos hsp]
  · intro hsp
    have heq : smartTruncate text maxLength =
        (text.take maxLength).take (maxLength - 3) ++ ellipsis := by
      unfold smartTruncate
      rw [if_neg hnot, if_neg hsp]
    refine ⟨heq, ?_⟩
    rw [heq, List.length_append, List.length_take, List.length_take]
    have he : ellipsis.length = 3 := rfl
    omega

/-- C3 witness: the amended branch description applied at the concrete
regression input `("The quick brown fox", 10)`. -/
theorem smartTruncate_branches_witness :
    smartTruncate ("The quick brown fox".toList) 10 = "The quick...".toList :=
  (smartTruncate_branches ("The quick brown fox".toList) 10
    (by decide) (by decide)).2.2

/-- C4: boundary-aware truncation is the identity whenever the text is no
longer than the bound. -/
theorem smartTruncate_identity (text : List Char) (maxLength : Nat)
    (h : text.length ≤ maxLength) : smartTruncate text maxLength = text := by
  unfold smartTruncate
  rw [if_pos h]

/-- C4 witness: the identity case at a concrete input. -/
theorem smartTruncate_identity_witness :
    smartTruncate ("abc".toList) 5 = "abc".toList :=
  smartTruncate_identity ("abc".toList) 5 (by decide)

/-- C5: `cleanConversationName` always succeeds; its output is at most 100
characters, contains no two adjacent whitespace characters (every internal
whitespace run is collapsed to a single space), maps the spec's two
examples to their stated outputs with no ellipsis, and returns the empty
string on empty input. -/
theorem clean_name_spec :
    (∀ s : List Char, (cleanConversationName s).length ≤ 100)
  ∧ (∀ s : List Char, noWsRun (cleanConversationName s) = true)
  ∧ cleanConversationName ("  multiple   spaces  ".toList) = "multiple spaces".toList
  ∧ (cleanConversationName (List.replicate 150 'x')).length = 100
  ∧ cleanConversationName [] = [] := by
  refine ⟨?_, ?_, by decide, by decide, rfl⟩
  · intro s
    unfold cleanConversationName
    rw [List.length_take]
    omega
  · intro s
    unfold cleanConversationName
    exact noWsRun_take _ 100 (collapse_noWsRun (trimList s) false)

/-- C6: whenever the trimmed input has fewer than 5 characters,
`generateConversationName` returns exactly the fallback string: the literal
prefix `"Chat started on "` followed by the short localized date-time, with
no stripping, capitalization, punctuation cleanup or truncation applied. -/
theorem generate_name_fallback (s : List Char) (month day hour minute : Nat)
    (h : (trimList s).length < 5) :
    generateConversationName month day hour minute s =
      "Chat started on ".toList ++ formatFallbackDate month day hour minute := by
  unfold generateConversationName
  rw [if_pos h]
  rfl

/-- C6 witness: the fallback equation at the concrete input `"hi"` and the
clock reading Jan 20, 2:30 PM. -/
theorem generate_name_fallback_witness :
    generateConversationName 0 20 14 30 ("hi".toList) =
      "Chat started on ".toList ++ formatFallbackDate 0 20 14 30 :=
  generate_name_fallback ("hi".toList) 0 20 14 30 (by decide)

/-- C7: opener handling.  (1) A leading opener from the ordered strip set,
matched case-insensitively at position 0 and followed by at least one
whitespace character, is stripped together with the whole whitespace run —
and nothing else is: the remainder is returned verbatim.  (2) A leading
opener from the preserve set leaves the string completely unchanged (the
source replaces the match with the matched text itself).  (3) If stripping
leaves a trimmed remainder of fewer than 5 characters, the stripped result
is discarded and the rest of the pipeline runs on the original message. -/
theorem opener_rules_spec :
    (∀ pre ws rest : List Char,
      pre.map Char.toLower ∈ stripOpeners →
      ws ≠ [] → (∀ c ∈ ws, isWs c = true) →
      isWs (rest.headD 'x') = false →
      stripOpener (pre ++ ws ++ rest) = rest)
  ∧ (∀ p rest : List Char, p.map Char.toLower ∈ preserveSet →
      stripOpener (p ++ rest) = p ++ rest)
  ∧ (∀ msg : List Char, (trimList (stripOpener msg)).length < 5 →
      applyNamingRules msg =
        trimList (dropTrailing '!' (dropTrailing '.' (dropTrailing '?'
          (capitalize msg))))) := by
  refine ⟨?_, ?_, ?_⟩
  · intro pre ws rest hmem hne hws hrest
    exact strip_first_match stripOpeners pre ws rest stripOpeners_free hmem hne hws hrest
  · intro p rest hmem
    apply strip_no_match
    intro o ho
    cases hm : matchesCI o (p ++ rest) with
    | false => simp [hm]
    | true =>
      exfalso
      rcases matchesCI_decomp o p rest hm with ⟨_, hlw⟩ | ⟨_, hlw⟩
      · have hd := (strip_preserve_disjoint o ho (p.map Char.toLower) hmem).1
        simp [hd] at hlw
      · have hd := (strip_preserve_disjoint o ho (p.map Char.toLower) hmem).2
        simp [hd] at hlw
  · intro msg h
    simp only [applyNamingRules, preserveOpeners]
    rw [if_pos h]

/-- C7 witness: the strip equation at the mixed-case concrete input
`"Hello world"`: the opener `hello` and the following space are removed. -/
theorem opener_rules_spec_witness :
    stripOpener ("Hello".toList ++ [' '] ++ "world".toList) = "world".toList :=
  opener_rules_spec.1 ("Hello".toList) [' '] ("world".toList)
    (by decide) (by decide) (by decide) (by decide)

/-- C8: after opener handling (with reversion below 5 characters) the engine
uppercases the first character leaving the remainder untouched, then removes
one trailing run of `?`, then one of `.`, then one of `!`, in exactly that
order, and trims again; in particular on `"abcd?!"` the question mark
survives because the exclamation run is removed after the question-mark
pass. -/
theorem naming_rules_finish_spec :
    (∀ (c : Char) (rest : List Char), capitalize (c :: rest) = Char.toUpper c :: rest)
  ∧ (∀ msg : List Char, applyNamingRules msg =
      trimList (dropTrailing '!' (dropTrailing '.' (dropTrailing '?'
        (capitalize (if (trimList (stripOpener msg)).length < 5
          then msg else trimList (stripOpener msg)))))))
  ∧ applyNamingRules ("abcd?!".toList) = "Abcd?".toList := by
  refine ⟨fun c rest => rfl, fun msg => rfl, by decide⟩

/-- C9: on every input whose trimmed length is at least 5,
`generateConversationName` never consults the clock: two runs with
different clock readings agree (the embedded functions are pure, so
determinism of the validator and cleaner is inherent; the source pins the
locale to `'en-US'`, so only the fallback path is time-dependent). -/
theorem generate_name_time_independent (s : List Char)
    (m1 d1 h1 mi1 m2 d2 h2 mi2 : Nat) (h : 5 ≤ (trimList s).length) :
    generateConversationName m1 d1 h1 mi1 s =
      generateConversationName m2 d2 h2 mi2 s := by
  have hn : ¬ (trimList s).length < 5 := by omega
  unfold generateConversationName
  rw [if_neg hn, if_neg hn]

/-- C9 witness: two different clock readings on `"hello world"`. -/
theorem generate_name_time_independent_witness :
    generateConversationName 0 1 2 3 ("hello world".toList) =
      generateConversationName 11 28 23 59 ("hello world".toList) :=
  generate_name_time_independent ("hello world".toList) 0 1 2 3 11 28 23 59 (by decide)

/-- C10: cleaning preserves validity: if `validateConversationName` accepts
a string, it also accepts `cleanConversationName` of that string — the
clean pipeline (trim, collapse whitespace runs to single spaces, cut at 100)
cannot empty a valid name, push its trimmed length over 100, or introduce a
reserved or control character (the only character it introduces is the
plain space). -/
theorem validate_clean_compat (s : List Char)
    (h : (validateConversationName s).isValid = true) :
    (validateConversationName (cleanConversationName s)).isValid = true := by
  simp only [validateConversationName] at h
  split_ifs at h with h1 h2 h3
  obtain ⟨c, r, hcr⟩ : ∃ c r, trimList s = c :: r := by
    cases hts : trimList s with
    | nil => exact absurd hts h1
    | cons c r => exact ⟨c, r, rfl⟩
  have hcws : isWs c = false := trim_head_not_ws s c r hcr
  have h100 : (100 : Nat) = 99 + 1 := rfl
  have hclean : cleanConversationName s = c :: (collapseAux false r).take 99 := by
    unfold cleanConversationName
    rw [hcr]
    simp only [collapseAux, hcws]
    rw [if_neg (by decide), h100, List.take_succ_cons]
  have hne : trimList (cleanConversationName s) ≠ [] := by
    intro hnil
    rw [trimList_eq_nil_iff] at hnil
    have hc := hnil c (by rw [hclean]; exact List.mem_cons_self c _)
    rw [hcws] at hc
    cases hc
  have hlen : ¬ 100 < (trimList (cleanConversationName s)).length := by
    have hle1 := trimList_length_le (cleanConversationName s)
    have hle2 : (cleanConversationName s).length ≤ 100 := by
      unfold cleanConversationName
      rw [List.length_take]
      omega
    omega
  have hany : ¬ (trimList (cleanConversationName s)).any isInvalidChar = true := by
    intro hcontra
    rw [List.any_eq_true] at hcontra
    obtain ⟨x, hx, hxinv⟩ := hcontra
    have hx1 : x ∈ cleanConversationName s := mem_of_mem_trimList _ x hx
    have hx2 : x ∈ collapseAux false (trimList s) := by
      unfold cleanConversationName at hx1
      exact (List.take_sublist 100 _).subset hx1
    rcases collapse_mem (trimList s) false x hx2 with hsp | hmem
    · rw [hsp] at hxinv
      exact absurd hxinv (by decide)
    · exact h3 (List.any_eq_true.mpr ⟨x, hmem, hxinv⟩)
  simp only [validateConversationName]
  rw [if_neg hne, if_neg hlen, if_neg hany]

/-- C10 witness: the compatibility applied to the valid name `"My Chat"`. -/
theorem validate_clean_compat_witness :
    (validateConversationName (cleanConversationName ("My Chat".toList))).isValid = true :=
  validate_clean_compat ("My Chat".toList) (by decide)
